import Mathlib

/-
Verification of the block-cache arena allocator in src/src/mem.c.

The cache's intrusive doubly-linked list is embedded as a Lean list of
blocks (head first); a block's prev and next pointers correspond to its
neighbours at its list position, and the explicit head and tail pointers
of struct mem_block_cache are carried separately so that the places where
the C code fails to update them are reproduced.  Pointers returned by the
allocator are modelled as (block id, byte offset) pairs; pointer identity
of blocks is modelled by a numeric id unique per backend allocation.
The backend acquire function is modelled by a boolean oracle passed to
each call: true means the backend call succeeds.  size_t arithmetic that
can wrap is taken modulo 2^64.  The C assert that can actually fail on
reachable inputs, b->avail >= size in block_alloc, is modelled by an
Option result (none = assertion failure); the remaining asserts only
restate well-formedness facts that hold under the hypotheses used below.
-/

namespace Ptab

/-- Word modulus for 64-bit size_t arithmetic. -/
def W : Nat := 2 ^ 64

/-- Wrapping size_t subtraction, for arguments below W. -/
def wsub (a b : Nat) : Nat := (a + W - b) % W

/-- MEM_BLOCK_SIZE from mem.c. -/
def MEM_BLOCK_SIZE : Nat := 4096

/-- MEM_BLOCK_OVERHEAD from mem.c. -/
def MEM_BLOCK_OVERHEAD : Nat := 32

/-- Modelled from the spec: internal.h (with struct mem_block) is not part of
the excerpt.  The spec states that a new block's used field is set to the size
of the control fields themselves, the fixed 32-byte per-block bookkeeping
overhead, so sizeof(struct mem_block) is modelled as 32. -/
def SIZEOF_MEM_BLOCK : Nat := 32

/-- One struct mem_block: its backend allocation is identified by id, and
used/avail are its bump-allocation bookkeeping fields. -/
structure Block where
  id : Nat
  used : Nat
  avail : Nat
deriving DecidableEq

/-- struct mem_block_cache: seq is the linked sequence from head to tail;
headId and tailId are the explicit head and tail pointers of the C struct
(they can go stale, which is why they are carried separately). -/
structure Cache where
  seq : List Block
  headId : Option Nat
  tailId : Option Nat
  numBlocks : Nat
  totalUsed : Nat
  totalAvail : Nat
  root : Option Nat
deriving DecidableEq

/-- The live arena context: the cache plus a source of fresh block ids
(modelling the distinctness of backend allocation addresses). -/
structure Arena where
  cache : Cache
  nextId : Nat
deriving DecidableEq

/-- mem.c block_valid: false when the block is larger than its prev or
smaller than its next. -/
def block_valid (prev? : Option Block) (next? : Option Block) (b : Block) : Bool :=
  let bad1 := match prev? with
    | some p => decide (p.avail < b.avail)
    | none => false
  let bad2 := match next? with
    | some n => decide (b.avail < n.avail)
    | none => false
  !bad1 && !bad2

/-- State of block b after bumping used forward by size bytes. -/
def bump (b : Block) (size : Nat) : Block :=
  { b with used := b.used + size, avail := b.avail - size }

/-- mem.c block_alloc: bump allocation from block b.  The returned pointer
b->buf + b->used is modelled as the pair (b.id, b.used).  The C assert
b->avail >= size is modelled by returning none when it fails. -/
def block_alloc (b : Block) (size : Nat) : Option ((Nat × Nat) × Block) :=
  if size ≤ b.avail then
    some ((b.id, b.used), bump b size)
  else
    none

/-- mem.c cache_insert: empty-cache case initializes the counters directly;
otherwise walk from the head and place b in front of the first node with
b.avail > node.avail (the walk is the takeWhile / dropWhile split), else
append at the tail.  The head pointer is updated exactly when the C pointer
comparison c->head == node succeeds. -/
def cache_insert (c : Cache) (b : Block) : Cache :=
  match c.headId with
  | none =>
      { seq := [b]
        headId := some b.id
        tailId := some b.id
        numBlocks := 1
        totalUsed := b.used
        totalAvail := b.avail
        root := some b.id }
  | some _ =>
      let l1 := c.seq.takeWhile (fun node => decide (b.avail ≤ node.avail))
      let l2 := c.seq.dropWhile (fun node => decide (b.avail ≤ node.avail))
      match l2 with
      | [] =>
          { c with
            seq := c.seq ++ [b]
            tailId := some b.id
            numBlocks := c.numBlocks + 1
            totalUsed := c.totalUsed + b.used
            totalAvail := c.totalAvail + b.avail }
      | node :: _ =>
          { c with
            seq := l1 ++ b :: l2
            headId := if c.headId = some node.id then some b.id else c.headId
            numBlocks := c.numBlocks + 1
            totalUsed := c.totalUsed + b.used
            totalAvail := c.totalAvail + b.avail }

/-- mem.c cache_remove of the block with id bid: splice it out of the
sequence; the tail pointer is repaired only when the block has a prev and
the head pointer only when it has a next, exactly as in the C code (so
removing the only block leaves both pointers stale).  Totals are not
touched.  When no linked block has that id the C code would chase garbage
prev/next pointers; that case is unreachable under the hypotheses used
below and only the count decrement is kept for totality. -/
def cache_remove (c : Cache) (bid : Nat) : Cache :=
  let l1 := c.seq.takeWhile (fun node => decide (node.id ≠ bid))
  match c.seq.dropWhile (fun node => decide (node.id ≠ bid)) with
  | [] => { c with numBlocks := c.numBlocks - 1 }
  | _ :: l2 =>
      let tl := if l1 ≠ [] ∧ c.tailId = some bid
        then (l1.getLast?).map Block.id else c.tailId
      let hd := if l2 ≠ [] ∧ c.headId = some bid
        then (l2.head?).map Block.id else c.headId
      { c with
        seq := l1 ++ l2
        headId := hd
        tailId := tl
        numBlocks := c.numBlocks - 1 }

/-- Loop of mem.c cache_find: remember the index of each block with
avail >= size and stop at the first block with avail < size. -/
def cache_find_loop (size : Nat) : List Block → Nat → Option Nat → Option Nat
  | [], _, retval => retval
  | b :: rest, i, retval =>
      if size ≤ b.avail then cache_find_loop size rest (i + 1) (some i)
      else retval

/-- mem.c cache_find: index (position from the head) of the found block,
none when no block can satisfy the size. -/
def cache_find (c : Cache) (size : Nat) : Option Nat :=
  cache_find_loop size c.seq 0 none

/-- Index of the block with the given id (models following the pointer
returned by create_block back into the freshly updated list). -/
def find_index (bid : Nat) : List Block → Option Nat
  | [] => none
  | b :: rest =>
      if b.id = bid then some 0
      else (find_index bid rest).map (· + 1)

/-- Target size computed by mem.c create_block before the oversize
override: (MEM_BLOCK_SIZE << num_blocks) - MEM_BLOCK_OVERHEAD in size_t
arithmetic. -/
def block_target_size (numBlocks : Nat) : Nat :=
  wsub ((MEM_BLOCK_SIZE <<< numBlocks) % W) MEM_BLOCK_OVERHEAD

/-- mem.c create_block: compute the doubling target, raise it to min_size
when the request is larger, call the backend (the ok oracle), and lay the
block header at the start of the new buffer. -/
def create_block (a : Arena) (ok : Bool) (min_size : Nat) : Option (Block × Arena) :=
  let size0 := block_target_size a.cache.numBlocks
  let size := if size0 < min_size then min_size else size0
  if ok then
    some ({ id := a.nextId, used := SIZEOF_MEM_BLOCK, avail := size - SIZEOF_MEM_BLOCK },
      { a with nextId := a.nextId + 1 })
  else
    none

/-- Shared tail of mem.c mem_alloc: bump-allocate from the block at
position i of the cache sequence, then check block_valid against its
current neighbours and remove/reinsert it when the check fails. -/
def alloc_at (a : Arena) (i : Nat) (size : Nat) : Option (Option (Nat × Nat) × Arena) :=
  match a.cache.seq[i]? with
  | none => none
  | some b =>
      match block_alloc b size with
      | none => none
      | some (ptr, b') =>
          let seq' := a.cache.seq.set i b'
          let c' := { a.cache with seq := seq' }
          let prev? := if i = 0 then none else seq'[i - 1]?
          let next? := seq'[i + 1]?
          if block_valid prev? next? b' then
            some (some ptr, { a with cache := c' })
          else
            some (some ptr, { a with cache := cache_insert (cache_remove c' b'.id) b' })

/-- mem.c mem_alloc on a live (non-null) context.  The outer none is an
assertion failure; some (none, a) is a NULL return with resulting state a. -/
def mem_alloc_body (a : Arena) (ok : Bool) (size : Nat) :
    Option (Option (Nat × Nat) × Arena) :=
  match cache_find a.cache size with
  | some i => alloc_at a i size
  | none =>
      match create_block a ok size with
      | none => some (none, a)
      | some (b, a1) =>
          let a2 := { a1 with cache := cache_insert a1.cache b }
          match find_index b.id a2.cache.seq with
          | none => none
          | some i => alloc_at a2 i size

/-- mem.c mem_alloc entry point: a none context is the defined NULL-context
failure (no arena state exists or is touched). -/
def mem_alloc (p : Option Arena) (ok : Bool) (size : Nat) :
    Option (Option (Nat × Nat) × Option Arena) :=
  match p with
  | none => some (none, none)
  | some a =>
      match mem_alloc_body a ok size with
      | none => none
      | some (r, a') => some (r, some a')

/-- mem.c mem_init: the root block is carved out of the same backend
allocation as the context structure (of size sizeofPtab, a parameter since
internal.h is outside the excerpt); the compile-time assert
sizeof(ptab_t) < size and a failing backend both yield none. -/
def mem_init (ok : Bool) (sizeofPtab : Nat) : Option Arena :=
  let size := MEM_BLOCK_SIZE - MEM_BLOCK_OVERHEAD
  if sizeofPtab < size then
    if ok then
      let used := sizeofPtab + SIZEOF_MEM_BLOCK
      let block : Block := { id := 0, used := used, avail := wsub size used }
      let cache0 : Cache :=
        { seq := []
          headId := none
          tailId := none
          numBlocks := 0
          totalUsed := 0
          totalAvail := 0
          root := none }
      let cache1 := cache_insert cache0 block
      some { cache := { cache1 with root := some 0 }, nextId := 1 }
    else none
  else none

/-- Ids of the blocks in sequence order (their pointer identities). -/
def idsOf (l : List Block) : List Nat := l.map Block.id

/-- Descending order on avail: desc x y holds when y fits below x. -/
def desc (x y : Block) : Prop := y.avail ≤ x.avail

instance : DecidableRel desc :=
  fun x y => inferInstanceAs (Decidable (y.avail ≤ x.avail))

/-- Well-formedness of the C linked structure relative to the list model:
the head and tail pointers denote the first and last entries, ids (pointer
values) are distinct, and num_blocks equals the number of linked blocks. -/
def CacheWF (c : Cache) : Prop :=
  c.headId = (idsOf c.seq).head? ∧
  c.tailId = (idsOf c.seq).getLast? ∧
  (idsOf c.seq).Nodup ∧
  c.numBlocks = c.seq.length

/-- The sequence is sorted by descending avail, full pairwise form. -/
def CachePairwiseDesc (c : Cache) : Prop := c.seq.Pairwise desc

/-- Adjacent-pair form of the global ordering invariant, as the spec
states it: every block has at least the avail of its successor. -/
def CacheSorted (c : Cache) : Prop := c.seq.Chain' desc

/-- Invariant carried by every live arena: well-formed links, descending
order, a non-empty cache, and all block ids below the fresh-id source. -/
def ArenaInv (a : Arena) : Prop :=
  CacheWF a.cache ∧ CachePairwiseDesc a.cache ∧ a.cache.seq ≠ [] ∧
  ∀ b ∈ a.cache.seq, b.id < a.nextId

instance (c : Cache) : Decidable (CacheWF c) := by
  unfold CacheWF
  infer_instance

instance (c : Cache) : Decidable (CachePairwiseDesc c) := by
  unfold CachePairwiseDesc
  infer_instance

instance (c : Cache) : Decidable (CacheSorted c) := by
  unfold CacheSorted
  infer_instance

instance (a : Arena) : Decidable (ArenaInv a) := by
  unfold ArenaInv
  infer_instance

/-- Arenas produced by mem_init followed by any sequence of successful
mem_alloc calls. -/
inductive Reachable : Arena → Prop
  | init (ok : Bool) (sizeofPtab : Nat) (a : Arena) :
      mem_init ok sizeofPtab = some a → Reachable a
  | step (a : Arena) (ok : Bool) (size : Nat) (r : Option (Nat × Nat)) (a' : Arena) :
      Reachable a → mem_alloc_body a ok size = some (r, a') → Reachable a'

/-- Specification of cache_find at cache c and size s: it returns none
exactly when the cache is empty or the head cannot satisfy s; a returned
index denotes the last block in head-to-tail order with avail at least s,
which has minimal avail among all qualifying blocks; and the result only
depends on the prefix of blocks scanned before the first one with
avail < s. -/
def CacheFindSpecAt (c : Cache) (s : Nat) : Prop :=
  (cache_find c s = none ↔
    c.seq.head? = none ∨ ∃ h0, c.seq.head? = some h0 ∧ h0.avail < s)
  ∧ (∀ i, cache_find c s = some i →
      ∃ b, c.seq[i]? = some b ∧ s ≤ b.avail
        ∧ (∀ j y, i < j → c.seq[j]? = some y → y.avail < s)
        ∧ ∀ x ∈ c.seq, s ≤ x.avail → b.avail ≤ x.avail)
  ∧ (∀ c2 : Cache,
      c2.seq.takeWhile (fun x => decide (s ≤ x.avail)) =
        c.seq.takeWhile (fun x => decide (s ≤ x.avail)) →
      cache_find c2 s = cache_find c s)

/-- Specification of cache_insert c b on a non-empty cache: the sequence
splits as l1 ++ l2 where every block of l1 has at least b's avail and the
first block of l2 (if any) has strictly less; b lands between them (hence
at the tail when no strictly smaller block exists, and after all blocks of
equal avail, whose relative order is preserved); head and tail pointers
match the new sequence; the count grows by one and b's used and avail are
added to the running totals. -/
def CacheInsertSpecAt (c : Cache) (b : Block) : Prop :=
  ∃ l1 l2, c.seq = l1 ++ l2 ∧
    (cache_insert c b).seq = l1 ++ b :: l2 ∧
    (∀ x ∈ l1, b.avail ≤ x.avail) ∧
    (∀ y, l2.head? = some y → y.avail < b.avail) ∧
    (cache_insert c b).headId = (idsOf ((cache_insert c b).seq)).head? ∧
    (cache_insert c b).tailId = (idsOf ((cache_insert c b).seq)).getLast? ∧
    (cache_insert c b).numBlocks = c.numBlocks + 1 ∧
    (cache_insert c b).totalUsed = c.totalUsed + b.used ∧
    (cache_insert c b).totalAvail = c.totalAvail + b.avail

/-- Specification of cache_remove c b for a block b linked in c: b is
spliced out, the count drops by one and the totals are untouched; when at
least one block remains the head and tail pointers denote the first and
last remaining blocks, but when b was the only block both pointers are
left pointing at the removed block. -/
def CacheRemoveSpecAt (c : Cache) (b : Block) : Prop :=
  ∃ l1 l2, c.seq = l1 ++ b :: l2 ∧
    (cache_remove c b.id).seq = l1 ++ l2 ∧
    (cache_remove c b.id).numBlocks = c.numBlocks - 1 ∧
    (cache_remove c b.id).totalUsed = c.totalUsed ∧
    (cache_remove c b.id).totalAvail = c.totalAvail ∧
    (l1 ++ l2 ≠ [] →
      (cache_remove c b.id).headId = (idsOf (l1 ++ l2)).head? ∧
      (cache_remove c b.id).tailId = (idsOf (l1 ++ l2)).getLast?) ∧
    (l1 ++ l2 = [] →
      (cache_remove c b.id).headId = some b.id ∧
      (cache_remove c b.id).tailId = some b.id)

/-- Specification of a zero-size allocation on a live arena: it succeeds,
returns the current bump address of the tail block (the one with least
avail), and leaves the arena state completely unchanged. -/
def AllocZeroSpecAt (a : Arena) : Prop :=
  ∃ t, a.cache.seq.getLast? = some t ∧
    ∀ ok, mem_alloc_body a ok 0 = some (some (t.id, t.used), a)

/-- How total_used actually moves across one successful mem_alloc call of
the given size: unchanged when an existing block serves the request in
place; increased by the serving block's pre-bump used plus the size when
the request triggers a remove/reinsert reorder; increased by the block
header overhead when a fresh block is provisioned, plus additionally the
header and the size when that fresh block immediately reorders. -/
def TotalUsedStepSpec (a : Arena) (size : Nat) (a' : Arena) : Prop :=
  a'.cache.totalUsed = a.cache.totalUsed
  ∨ (∃ b ∈ a.cache.seq, a'.cache.totalUsed = a.cache.totalUsed + (b.used + size))
  ∨ a'.cache.totalUsed = a.cache.totalUsed + SIZEOF_MEM_BLOCK
  ∨ a'.cache.totalUsed =
      a.cache.totalUsed + SIZEOF_MEM_BLOCK + (SIZEOF_MEM_BLOCK + size)

/-- The arena produced by mem_init with a working backend and a 64-byte
context structure: the root block co-resides with the context. -/
def arena0 : Arena :=
  { cache :=
      { seq := [{ id := 0, used := 96, avail := 3968 }]
        headId := some 0
        tailId := some 0
        numBlocks := 1
        totalUsed := 96
        totalAvail := 3968
        root := some 0 }
    nextId := 1 }

/-- arena0 after a successful 100-byte allocation from the root block. -/
def arena1 : Arena :=
  { cache :=
      { seq := [{ id := 0, used := 196, avail := 3868 }]
        headId := some 0
        tailId := some 0
        numBlocks := 1
        totalUsed := 96
        totalAvail := 3968
        root := some 0 }
    nextId := 1 }

/-- arena0 after a successful 8-byte allocation from the root block. -/
def arena2 : Arena :=
  { cache :=
      { seq := [{ id := 0, used := 104, avail := 3960 }]
        headId := some 0
        tailId := some 0
        numBlocks := 1
        totalUsed := 96
        totalAvail := 3968
        root := some 0 }
    nextId := 1 }

/-- A well-formed two-block cache used to exercise cache_remove. -/
def cache2b : Cache :=
  { seq := [{ id := 0, used := 96, avail := 3968 }, { id := 1, used := 40, avail := 100 }]
    headId := some 0
    tailId := some 1
    numBlocks := 2
    totalUsed := 136
    totalAvail := 4068
    root := some 0 }

theorem list_split_at {α : Type} (l : List α) (i : Nat) (x : α)
    (h : l[i]? = some x) : l = l.take i ++ x :: l.drop (i + 1) := by
  induction l generalizing i with
  | nil => simp at h
  | cons y ys ih =>
      cases i with
      | zero =>
          simp only [List.getElem?_cons_zero, Option.some_inj] at h
          simp [h]
      | succ n =>
          simp only [List.getElem?_cons_succ] at h
          simpa [List.take_succ_cons, List.drop_succ_cons] using
            congrArg (List.cons y) (ih n h)

theorem list_set_split {α : Type} (l : List α) (i : Nat) (x x' : α)
    (h : l[i]? = some x) : l.set i x' = l.take i ++ x' :: l.drop (i + 1) := by
  induction l generalizing i with
  | nil => simp at h
  | cons y ys ih =>
      cases i with
      | zero => simp
      | succ n =>
          simp only [List.getElem?_cons_succ] at h
          simpa [List.take_succ_cons, List.drop_succ_cons, List.set_cons_succ] using
            congrArg (List.cons y) (ih n h)

theorem list_set_self {α : Type} (l : List α) (i : Nat) (x : α)
    (h : l[i]? = some x) : l.set i x = l := by
  rw [list_set_split l i x x h]
  exact (list_split_at l i x h).symm

theorem takeWhile_split {α : Type} (p : α → Bool) (l1 : List α) (b : α) (l2 : List α)
    (h1 : ∀ x ∈ l1, p x = true) (hb : p b = false) :
    (l1 ++ b :: l2).takeWhile p = l1 ∧ (l1 ++ b :: l2).dropWhile p = b :: l2 := by
  induction l1 with
  | nil => simp [List.takeWhile_cons, List.dropWhile_cons, hb]
  | cons x xs ih =>
      have hx : p x = true := h1 x (by simp)
      have hrest := ih (fun z hz => h1 z (by simp [hz]))
      simp [List.takeWhile_cons, List.dropWhile_cons, hx, hrest.1, hrest.2]

theorem pairwise_insert_desc (b : Block) (l : List Block) (h : l.Pairwise desc) :
    (l.takeWhile (fun x => decide (b.avail ≤ x.avail)) ++
      b :: l.dropWhile (fun x => decide (b.avail ≤ x.avail))).Pairwise desc := by
  induction l with
  | nil => simp
  | cons x xs ih =>
      rcases List.pairwise_cons.mp h with ⟨hx, hxs⟩
      by_cases hpx : b.avail ≤ x.avail
      · have hp : decide (b.avail ≤ x.avail) = true := by simp [hpx]
        simp only [List.takeWhile_cons, List.dropWhile_cons, hp, if_true,
          List.cons_append]
        refine List.pairwise_cons.mpr ⟨?_, ih hxs⟩
        intro y hy
        rcases List.mem_append.mp hy with hyt | hyc
        · exact hx y (List.takeWhile_sublist _ |>.mem hyt)
        · rcases List.mem_cons.mp hyc with rfl | hyd
          · exact hpx
          · exact hx y (List.dropWhile_sublist _ |>.mem hyd)
      · have hlt : x.avail < b.avail := Nat.lt_of_not_le hpx
        have hp : decide (b.avail ≤ x.avail) = false := by simp [hpx]
        simp only [List.takeWhile_cons, List.dropWhile_cons, hp, if_false,
          List.nil_append]
        refine List.pairwise_cons.mpr ⟨?_, h⟩
        intro y hy
        rcases List.mem_cons.mp hy with rfl | hyd
        · exact Nat.le_of_lt hlt
        · exact Nat.le_trans (hx y hyd) (Nat.le_of_lt hlt)

theorem pairwise_set_desc : ∀ (l : List Block) (i : Nat) (b b' : Block),
    l.Pairwise desc → l[i]? = some b → b'.avail ≤ b.avail →
    (∀ y, l[i + 1]? = some y → y.avail ≤ b'.avail) →
    (l.set i b').Pairwise desc := by
  intro l
  induction l with
  | nil => intro i b b' _ h; simp at h
  | cons x xs ih =>
      intro i b b' hp hget hle hnext
      rcases List.pairwise_cons.mp hp with ⟨hx, hxs⟩
      cases i with
      | zero =>
          have hxb : x = b := by simpa using hget
          subst hxb
          simp only [List.set_cons_zero]
          refine List.pairwise_cons.mpr ⟨?_, hxs⟩
          intro y hy
          cases xs with
          | nil => simp at hy
          | cons n rest =>
              have hn : n.avail ≤ b'.avail := hnext n (by simp)
              rcases List.mem_cons.mp hy with rfl | hyr
              · exact hn
              · exact Nat.le_trans ((List.pairwise_cons.mp hxs).1 y hyr) hn
      | succ n =>
          simp only [List.set_cons_succ]
          refine List.pairwise_cons.mpr
            ⟨?_, ih n b b' hxs (by simpa using hget) hle
              (fun y hy => hnext y (by simpa using hy))⟩
          intro y hy
          rcases List.mem_or_eq_of_mem_set hy with hyl | rfl
          · exact hx y hyl
          · have hbx : desc x b := by
              refine hx b (List.getElem?_mem (l := xs) (n := n) ?_)
              simpa using hget
            exact Nat.le_trans hle hbx

theorem dropWhile_head_false {α : Type} (p : α → Bool) :
    ∀ (l : List α) (d : α) (rest : List α), l.dropWhile p = d :: rest → p d = false := by
  intro l
  induction l with
  | nil => intro d rest h; simp at h
  | cons x xs ih =>
      intro d rest h
      rw [List.dropWhile_cons] at h
      by_cases hx : p x = true
      · simp only [hx, if_true] at h
        exact ih d rest h
      · simp only [hx, if_false] at h
        cases h
        simpa using hx

theorem cache_find_loop_eq (s : Nat) : ∀ (l : List Block) (i : Nat) (r : Option Nat),
    cache_find_loop s l i r =
      if l.takeWhile (fun x => decide (s ≤ x.avail)) = [] then r
      else some (i + ((l.takeWhile (fun x => decide (s ≤ x.avail))).length - 1)) := by
  intro l
  induction l with
  | nil => intro i r; simp [cache_find_loop]
  | cons b rest ih =>
      intro i r
      by_cases hb : s ≤ b.avail
      · have hp : decide (s ≤ b.avail) = true := by simp [hb]
        simp only [cache_find_loop, if_pos hb, List.takeWhile_cons, hp, if_true]
        rw [ih (i + 1) (some i)]
        by_cases hk : rest.takeWhile (fun x => decide (s ≤ x.avail)) = []
        · simp [hk]
        · rw [if_neg hk, if_neg (by simp)]
          have hlen : 1 ≤ (rest.takeWhile (fun x => decide (s ≤ x.avail))).length := by
            cases hkk : rest.takeWhile (fun x => decide (s ≤ x.avail)) with
            | nil => exact absurd hkk hk
            | cons z zs => simp [hkk]
          congr 1
          simp only [List.length_cons]
          omega
      · have hp : decide (s ≤ b.avail) = false := by simp [hb]
        simp [cache_find_loop, if_neg hb, List.takeWhile_cons, hp]

theorem cache_find_eq (c : Cache) (s : Nat) :
    cache_find c s =
      if c.seq.takeWhile (fun x => decide (s ≤ x.avail)) = [] then none
      else some ((c.seq.takeWhile (fun x => decide (s ≤ x.avail))).length - 1) := by
  unfold cache_find
  rw [cache_find_loop_eq]
  simp

/-- C4: on a cache sorted by descending avail, cache_find returns the last
block in head-to-tail order whose avail is at least the requested size
(equivalently one of minimal avail among the qualifying blocks), returns
none exactly when the cache is empty or the head's avail is below the
request, and its result depends only on the blocks scanned before the
first one with avail below the request. -/
theorem cache_find_spec (c : Cache) (s : Nat) (hs : CachePairwiseDesc c) :
    CacheFindSpecAt c s := by
  have htwdw := List.takeWhile_append_dropWhile
    (p := fun x => decide (s ≤ x.avail)) (l := c.seq)
  have hdw_small : ∀ y ∈ c.seq.dropWhile (fun x => decide (s ≤ x.avail)), y.avail < s := by
    intro y hy
    cases hdw : c.seq.dropWhile (fun x => decide (s ≤ x.avail)) with
    | nil => rw [hdw] at hy; simp at hy
    | cons d rest =>
        have hd : d.avail < s := by
          have := dropWhile_head_false (fun x => decide (s ≤ x.avail)) c.seq d rest hdw
          simpa using Nat.lt_of_not_le (by simpa using this)
        rw [hdw] at hy
        rcases List.mem_cons.mp hy with rfl | hyr
        · exact hd
        · have hpw : (d :: rest).Pairwise desc := by
            rw [← hdw]
            exact List.Pairwise.sublist (List.dropWhile_sublist _) hs
          exact Nat.lt_of_le_of_lt ((List.pairwise_cons.mp hpw).1 y hyr) hd
  refine ⟨?_, ?_, ?_⟩
  · rw [cache_find_eq]
    cases hseq : c.seq with
    | nil => simp
    | cons h t =>
        by_cases hh : s ≤ h.avail
        · have hp : decide (s ≤ h.avail) = true := by simp [hh]
          rw [List.takeWhile_cons, hp]
          simp only [eq_self_iff_true, if_true, List.head?_cons]
          rw [if_neg (by simp)]
          constructor
          · intro hcon; exact absurd hcon (by simp)
          · rintro (hcon | ⟨h0, hh0, hlt⟩)
            · exact absurd hcon (by simp)
            · simp only [Option.some_inj] at hh0
              subst hh0
              exact absurd hh (Nat.not_le_of_lt hlt)
        · have hp : decide (s ≤ h.avail) = false := by simp [hh]
          rw [List.takeWhile_cons, hp]
          simp only [Bool.false_eq_true, if_false, List.head?_cons, if_true]
          simp only [true_iff]
          exact Or.inr ⟨h, rfl, Nat.lt_of_not_le hh⟩
  · intro i hi
    rw [cache_find_eq] at hi
    by_cases htw : c.seq.takeWhile (fun x => decide (s ≤ x.avail)) = []
    · rw [if_pos htw] at hi; exact absurd hi (by simp)
    · rw [if_neg htw] at hi
      have hi' : i = (c.seq.takeWhile (fun x => decide (s ≤ x.avail))).length - 1 :=
        (Option.some_inj.mp hi).symm
      set tw := c.seq.takeWhile (fun x => decide (s ≤ x.avail)) with htwdef
      have hlen : 1 ≤ tw.length := by
        cases hkk : tw with
        | nil => exact absurd hkk htw
        | cons z zs => simp [hkk]
      have hb? : tw.getLast? = some (tw.getLast htw) := List.getLast?_eq_getLast tw htw
      refine ⟨tw.getLast htw, ?_, ?_, ?_, ?_⟩
      · rw [← htwdw, List.getElem?_append_left (by omega)]
        rw [hi', ← List.getLast?_eq_getElem?]
        exact hb?
      · have hmem : tw.getLast htw ∈ tw := List.getLast_mem htw
        have := List.mem_takeWhile_imp hmem
        simpa using this
      · intro j y hij hj
        have hjlen : tw.length ≤ j := by omega
        rw [← htwdw, List.getElem?_append_right hjlen] at hj
        exact hdw_small y (List.getElem?_mem hj)
      · intro x hx hxq
        rw [← htwdw] at hx
        rcases List.mem_append.mp hx with hxt | hxd
        · have hsplit := List.dropLast_append_getLast htw
          have hpwtw : tw.Pairwise desc :=
            List.Pairwise.sublist (List.takeWhile_sublist _) hs
          rw [← hsplit] at hpwtw hxt
          rcases List.mem_append.mp hxt with hxdl | hxl
          · exact (List.pairwise_append.mp hpwtw).2.2 x hxdl _ (by simp)
          · simp only [List.mem_singleton] at hxl
            subst hxl
            exact Nat.le_refl _
        · exact absurd hxq (Nat.not_le_of_lt (hdw_small x hxd))
  · intro c2 h2
    rw [cache_find_eq, cache_find_eq, h2]

theorem idsOf_append (l1 l2 : List Block) : idsOf (l1 ++ l2) = idsOf l1 ++ idsOf l2 := by
  simp [idsOf]

theorem idsOf_cons (b : Block) (l : List Block) : idsOf (b :: l) = b.id :: idsOf l := rfl

theorem head?_append_left {α : Type} (l1 l2 : List α) (h : l1 ≠ []) :
    (l1 ++ l2).head? = l1.head? := by
  cases l1 with
  | nil => exact absurd rfl h
  | cons x xs => rfl

theorem getLast?_append_right {α : Type} (l1 l2 : List α) (h : l2 ≠ []) :
    (l1 ++ l2).getLast? = l2.getLast? := by
  rw [List.getLast?_append]
  cases hl : l2.getLast? with
  | none => exact absurd (List.getLast?_eq_none_iff.mp hl) h
  | some x => rfl

theorem nodup_insert_mid (l1 l2 : List Block) (b : Block)
    (h : (idsOf (l1 ++ l2)).Nodup) (hb : b.id ∉ idsOf (l1 ++ l2)) :
    (idsOf (l1 ++ b :: l2)).Nodup := by
  have hperm : List.Perm (idsOf (l1 ++ b :: l2)) (b.id :: idsOf (l1 ++ l2)) := by
    simp only [idsOf, List.map_append, List.map_cons]
    exact List.perm_middle
  exact hperm.nodup_iff.mpr (List.nodup_cons.mpr ⟨hb, h⟩)

theorem cache_insert_core (c : Cache) (b : Block) (hwf : CacheWF c) (hne : c.seq ≠ []) :
    (cache_insert c b).seq =
      c.seq.takeWhile (fun x => decide (b.avail ≤ x.avail)) ++
        b :: c.seq.dropWhile (fun x => decide (b.avail ≤ x.avail)) ∧
    (cache_insert c b).headId = (idsOf (cache_insert c b).seq).head? ∧
    (cache_insert c b).tailId = (idsOf (cache_insert c b).seq).getLast? ∧
    (cache_insert c b).numBlocks = c.numBlocks + 1 ∧
    (cache_insert c b).totalUsed = c.totalUsed + b.used ∧
    (cache_insert c b).totalAvail = c.totalAvail + b.avail := by
  obtain ⟨s0, ss, hseq⟩ : ∃ s0 ss, c.seq = s0 :: ss := by
    cases hx : c.seq with
    | nil => exact absurd hx hne
    | cons z zs => exact ⟨z, zs, rfl⟩
  have hhead : c.headId = some s0.id := by
    rw [hwf.1, hseq]; rfl
  have htwdw := List.takeWhile_append_dropWhile
    (p := fun x => decide (b.avail ≤ x.avail)) (l := c.seq)
  cases hdw : c.seq.dropWhile (fun x => decide (b.avail ≤ x.avail)) with
  | nil =>
      have htw : c.seq.takeWhile (fun x => decide (b.avail ≤ x.avail)) = c.seq := by
        have hx := htwdw
        rw [hdw, List.append_nil] at hx
        exact hx
      have h1 : (cache_insert c b).seq = c.seq ++ [b] := by
        simp only [cache_insert, hhead, hdw]
      have h2 : (cache_insert c b).headId = some s0.id := by
        simp only [cache_insert, hhead, hdw]
      have h3 : (cache_insert c b).tailId = some b.id := by
        simp only [cache_insert, hhead, hdw]
      have h4 : (cache_insert c b).numBlocks = c.numBlocks + 1 := by
        simp only [cache_insert, hhead, hdw]
      have h5 : (cache_insert c b).totalUsed = c.totalUsed + b.used := by
        simp only [cache_insert, hhead, hdw]
      have h6 : (cache_insert c b).totalAvail = c.totalAvail + b.avail := by
        simp only [cache_insert, hhead, hdw]
      refine ⟨by rw [h1, htw], ?_, ?_, h4, h5, h6⟩
      · rw [h1, h2, idsOf_append, head?_append_left _ _ (by simp [idsOf, hseq]), hseq]
        rfl
      · rw [h1, h3, idsOf_append, getLast?_append_right _ _ (by simp [idsOf])]
        rfl
  | cons node rest =>
      have h1 : (cache_insert c b).seq =
          c.seq.takeWhile (fun x => decide (b.avail ≤ x.avail)) ++ b :: node :: rest := by
        simp only [cache_insert, hhead, hdw]
      have h2 : (cache_insert c b).headId =
          if some s0.id = some node.id then some b.id else some s0.id := by
        simp only [cache_insert, hhead, hdw]
      have h3 : (cache_insert c b).tailId = c.tailId := by
        simp only [cache_insert, hhead, hdw]
      have h4 : (cache_insert c b).numBlocks = c.numBlocks + 1 := by
        simp only [cache_insert, hhead, hdw]
      have h5 : (cache_insert c b).totalUsed = c.totalUsed + b.used := by
        simp only [cache_insert, hhead, hdw]
      have h6 : (cache_insert c b).totalAvail = c.totalAvail + b.avail := by
        simp only [cache_insert, hhead, hdw]
      refine ⟨by rw [h1], ?_, ?_, h4, h5, h6⟩
      · rw [h1, h2]
        cases htw : c.seq.takeWhile (fun x => decide (b.avail ≤ x.avail)) with
        | nil =>
            have hcseq : c.seq = node :: rest := by rw [← htwdw, htw, hdw]; rfl
            have hs0 : s0 = node := by
              rw [hseq] at hcseq
              exact ((List.cons.injEq _ _ _ _).mp hcseq).1
            rw [if_pos (by rw [hs0])]
            rfl
        | cons t0 ts =>
            have hs0 : s0 = t0 := by
              have hcseq : c.seq = t0 :: (ts ++ node :: rest) := by
                rw [← htwdw, htw, hdw]; rfl
              rw [hseq] at hcseq
              exact ((List.cons.injEq _ _ _ _).mp hcseq).1
            have hnodup : (idsOf c.seq).Nodup := hwf.2.2.1
            have hdisj : t0.id ≠ node.id := by
              rw [← htwdw, htw, hdw, idsOf_append] at hnodup
              have hd := (List.nodup_append.mp hnodup).2.2
              exact fun hcon =>
                hd (a := t0.id) (by simp [idsOf]) (by rw [hcon]; simp [idsOf])
            rw [if_neg (by rw [hs0]; simpa using hdisj), hs0]
            rfl
      · rw [h1, h3, hwf.2.1]
        have hx := htwdw
        rw [hdw] at hx
        have hl : (idsOf c.seq).getLast? = (idsOf (node :: rest)).getLast? := by
          rw [← hx, idsOf_append, getLast?_append_right _ _ (by simp [idsOf])]
        rw [hl, idsOf_append, getLast?_append_right _ _ (by simp [idsOf])]
        simp [idsOf]

theorem cache_insert_wf (c : Cache) (b : Block) (hwf : CacheWF c) (hne : c.seq ≠ [])
    (hfresh : b.id ∉ idsOf c.seq) : CacheWF (cache_insert c b) := by
  obtain ⟨hseq', hh, ht, hn, _, _⟩ := cache_insert_core c b hwf hne
  have htwdw := List.takeWhile_append_dropWhile
    (p := fun x => decide (b.avail ≤ x.avail)) (l := c.seq)
  refine ⟨hh, ht, ?_, ?_⟩
  · rw [hseq']
    apply nodup_insert_mid
    · rw [htwdw]; exact hwf.2.2.1
    · rw [htwdw]; exact hfresh
  · rw [hseq', hn, hwf.2.2.2]
    have hlen := congrArg List.length htwdw
    simp only [List.length_append, List.length_cons] at hlen ⊢
    omega

theorem getLast?_cons_of_ne_nil {α : Type} (a : α) (l : List α) (h : l ≠ []) :
    (a :: l).getLast? = l.getLast? :=
  getLast?_append_right [a] l h

/-- C5: inserting a block into a non-empty descending-sorted cache places
it immediately before the first node with strictly smaller avail (hence
after all nodes of equal avail, whose prior relative order is preserved),
appends it at the tail when no strictly smaller node exists, keeps the
head and tail pointers denoting the ends of the new sequence, increments
the count by one, and adds the block's used and avail to the totals. -/
theorem cache_insert_spec (c : Cache) (b : Block) (hwf : CacheWF c)
    (hsorted : CachePairwiseDesc c) (hne : c.seq ≠ []) : CacheInsertSpecAt c b := by
  obtain ⟨hseq', hh, ht, hn, hu, ha⟩ := cache_insert_core c b hwf hne
  refine ⟨c.seq.takeWhile (fun x => decide (b.avail ≤ x.avail)),
    c.seq.dropWhile (fun x => decide (b.avail ≤ x.avail)),
    (List.takeWhile_append_dropWhile _ c.seq).symm, hseq', ?_, ?_, hh, ht, hn, hu, ha⟩
  · intro x hx
    simpa using List.mem_takeWhile_imp hx
  · intro y hy
    cases hdw : c.seq.dropWhile (fun x => decide (b.avail ≤ x.avail)) with
    | nil => rw [hdw] at hy; simp at hy
    | cons d rest =>
        rw [hdw] at hy
        simp only [List.head?_cons, Option.some_inj] at hy
        have hfalse := dropWhile_head_false _ c.seq d rest hdw
        rw [← hy]
        exact Nat.lt_of_not_le (by simpa using hfalse)

theorem cache_remove_core (c : Cache) (l1 : List Block) (b : Block) (l2 : List Block)
    (hwf : CacheWF c) (hseq : c.seq = l1 ++ b :: l2) :
    (cache_remove c b.id).seq = l1 ++ l2 ∧
    (cache_remove c b.id).numBlocks = c.numBlocks - 1 ∧
    (cache_remove c b.id).totalUsed = c.totalUsed ∧
    (cache_remove c b.id).totalAvail = c.totalAvail ∧
    (l1 ++ l2 ≠ [] →
      (cache_remove c b.id).headId = (idsOf (l1 ++ l2)).head? ∧
      (cache_remove c b.id).tailId = (idsOf (l1 ++ l2)).getLast?) ∧
    (l1 ++ l2 = [] →
      (cache_remove c b.id).headId = some b.id ∧
      (cache_remove c b.id).tailId = some b.id) := by
  have hnodup : (idsOf l1 ++ b.id :: idsOf l2).Nodup := by
    have hx := hwf.2.2.1
    rw [hseq, idsOf_append, idsOf_cons] at hx
    exact hx
  have hb1 : ∀ x ∈ l1, x.id ≠ b.id := by
    intro x hx hcon
    have hd := (List.nodup_append.mp hnodup).2.2
    exact hd (List.mem_map_of_mem Block.id hx) (by rw [hcon]; simp)
  have hb2 : b.id ∉ idsOf l2 := by
    have := (List.nodup_append.mp hnodup).2.1
    exact (List.nodup_cons.mp this).1
  have hsplit := takeWhile_split (fun node => decide (node.id ≠ b.id)) l1 b l2
    (fun x hx => by simpa using hb1 x hx) (by simp)
  have htw : c.seq.takeWhile (fun node => decide (node.id ≠ b.id)) = l1 := by
    rw [hseq]; exact hsplit.1
  have hdw : c.seq.dropWhile (fun node => decide (node.id ≠ b.id)) = b :: l2 := by
    rw [hseq]; exact hsplit.2
  have hhd : (cache_remove c b.id).headId =
      if l2 ≠ [] ∧ c.headId = some b.id then (l2.head?).map Block.id else c.headId := by
    simp only [cache_remove, htw, hdw]
  have htl : (cache_remove c b.id).tailId =
      if l1 ≠ [] ∧ c.tailId = some b.id then (l1.getLast?).map Block.id else c.tailId := by
    simp only [cache_remove, htw, hdw]
  have hchead : c.headId = (idsOf l1 ++ b.id :: idsOf l2).head? := by
    have := hwf.1
    rw [hseq, idsOf_append, idsOf_cons] at this
    exact this
  have hctail : c.tailId = (idsOf l1 ++ b.id :: idsOf l2).getLast? := by
    have := hwf.2.1
    rw [hseq, idsOf_append, idsOf_cons] at this
    exact this
  refine ⟨by simp only [cache_remove, htw, hdw], by simp only [cache_remove, htw, hdw],
    by simp only [cache_remove, htw, hdw], by simp only [cache_remove, htw, hdw], ?_, ?_⟩
  · intro hne
    constructor
    · rw [hhd]
      cases hl1 : l1 with
      | cons x xs =>
          subst hl1
          have hcx : c.headId = some x.id := by rw [hchead]; rfl
          rw [if_neg (by
            rintro ⟨-, hcon⟩
            rw [hcx] at hcon
            exact hb1 x (by simp) (Option.some_inj.mp hcon))]
          rw [hcx]
          rfl
      | nil =>
          subst hl1
          have hl2 : l2 ≠ [] := hne
          have hcx : c.headId = some b.id := by rw [hchead]; rfl
          rw [if_pos ⟨hl2, hcx⟩]
          simp only [List.nil_append]
          rw [idsOf, List.head?_map]
    · rw [htl]
      cases hl2 : l2 with
      | cons y ys =>
          subst hl2
          have hids2 : idsOf (y :: ys) ≠ [] := by simp [idsOf]
          have hct : c.tailId = (idsOf (y :: ys)).getLast? := by
            rw [hctail, getLast?_append_right _ _ (by simp),
              getLast?_cons_of_ne_nil _ _ hids2]
          rw [if_neg (by
            rintro ⟨-, hcon⟩
            rw [hct] at hcon
            have hmem : b.id ∈ idsOf (y :: ys) := by
              cases hgl : (idsOf (y :: ys)).getLast? with
              | none => rw [hgl] at hcon; exact absurd hcon (by simp)
              | some z =>
                  rw [hgl] at hcon
                  have hz : z ∈ idsOf (y :: ys) := by
                    have hgl2 := List.getLast?_eq_getLast _ hids2
                    rw [hgl2] at hgl
                    rw [← Option.some_inj.mp hgl]
                    exact List.getLast_mem hids2
                  rw [Option.some_inj.mp hcon] at hz
                  exact hz
            exact hb2 hmem)]
          rw [hct, idsOf_append,
            getLast?_append_right _ _ (by simp [idsOf])]
      | nil =>
          subst hl2
          have hl1 : l1 ≠ [] := by
            intro hcon
            rw [hcon] at hne
            exact hne rfl
          have hct : c.tailId = some b.id := by
            rw [hctail, getLast?_append_right _ _ (by simp)]
            rfl
          rw [if_pos ⟨hl1, hct⟩, List.append_nil, idsOf, List.getLast?_map]
  · intro hempty
    have hl1 : l1 = [] := by
      cases hl : l1 with
      | nil => rfl
      | cons x xs => rw [hl] at hempty; exact absurd hempty (by simp)
    subst hl1
    have hl2 : l2 = [] := hempty
    subst hl2
    constructor
    · rw [hhd, if_neg (by rintro ⟨hcon, -⟩; exact hcon rfl), hchead]
      rfl
    · rw [htl, if_neg (by rintro ⟨hcon, -⟩; exact hcon rfl), hctail]
      rfl

/-- C6 (amended): removing a block linked in a well-formed cache splices
it out, decrements the count, and leaves the totals untouched; the head
and tail pointers correctly denote the remaining sequence's ends whenever
at least one block remains, but removing the only block leaves both
pointers still aimed at the removed block. -/
theorem cache_remove_spec (c : Cache) (b : Block) (hwf : CacheWF c)
    (hb : b ∈ c.seq) : CacheRemoveSpecAt c b := by
  obtain ⟨l1, l2, hseq⟩ := List.append_of_mem hb
  obtain ⟨h1, h2, h3, h4, h5, h6⟩ := cache_remove_core c l1 b l2 hwf hseq
  exact ⟨l1, l2, hseq, h1, h2, h3, h4, h5, h6⟩

theorem idsOf_set (l : List Block) (i : Nat) (b b' : Block)
    (hget : l[i]? = some b) (hid : b'.id = b.id) :
    idsOf (l.set i b') = idsOf l := by
  rw [list_set_split l i b b' hget]
  conv_rhs => rw [list_split_at l i b hget]
  rw [idsOf_append, idsOf_append, idsOf_cons, idsOf_cons, hid]

theorem cache_set_wf (c : Cache) (i : Nat) (b b' : Block)
    (hwf : CacheWF c) (hget : c.seq[i]? = some b) (hid : b'.id = b.id) :
    CacheWF { c with seq := c.seq.set i b' } := by
  have hids := idsOf_set c.seq i b b' hget hid
  refine ⟨?_, ?_, ?_, ?_⟩
  · show c.headId = (idsOf (c.seq.set i b')).head?
    rw [hids]; exact hwf.1
  · show c.tailId = (idsOf (c.seq.set i b')).getLast?
    rw [hids]; exact hwf.2.1
  · show (idsOf (c.seq.set i b')).Nodup
    rw [hids]; exact hwf.2.2.1
  · show c.numBlocks = (c.seq.set i b').length
    rw [List.length_set]; exact hwf.2.2.2

theorem block_valid_next (prev? : Option Block) (y b : Block)
    (h : block_valid prev? (some y) b = true) : y.avail ≤ b.avail := by
  cases prev? with
  | none =>
      simp [block_valid] at h
      exact h
  | some p =>
      simp [block_valid] at h
      exact h.2

theorem block_valid_false_neighbor (prev? next? : Option Block) (b : Block)
    (h : ¬ (block_valid prev? next? b = true)) :
    (∃ p, prev? = some p) ∨ ∃ y, next? = some y := by
  cases prev? with
  | some p => exact Or.inl ⟨p, rfl⟩
  | none =>
      cases next? with
      | some y => exact Or.inr ⟨y, rfl⟩
      | none => exact absurd (by simp [block_valid]) h

theorem alloc_at_eq (a : Arena) (i size : Nat) (b : Block)
    (hget : a.cache.seq[i]? = some b) (hle : size ≤ b.avail) :
    alloc_at a i size =
      if block_valid
          (if i = 0 then none else (a.cache.seq.set i (bump b size))[i - 1]?)
          ((a.cache.seq.set i (bump b size))[i + 1]?) (bump b size) then
        some (some (b.id, b.used),
          { a with cache := { a.cache with seq := a.cache.seq.set i (bump b size) } })
      else
        some (some (b.id, b.used),
          { a with cache :=
              (cache_insert
                (cache_remove
                  { a.cache with seq := a.cache.seq.set i (bump b size) }
                  (bump b size).id)
                (bump b size)) }) := by
  simp only [alloc_at, hget, block_alloc, if_pos hle]

theorem alloc_at_master (a : Arena) (i size : Nat) (r : Option (Nat × Nat)) (a' : Arena)
    (hInv : ArenaInv a) (h : alloc_at a i size = some (r, a')) :
    ArenaInv a' ∧ a'.nextId = a.nextId ∧
    (a'.cache.totalUsed = a.cache.totalUsed ∨
      ∃ b0, a.cache.seq[i]? = some b0 ∧
        a'.cache.totalUsed = a.cache.totalUsed + (b0.used + size)) := by
  obtain ⟨hwf, hpw, hne, hfresh⟩ := hInv
  cases hget : a.cache.seq[i]? with
  | none =>
      simp only [alloc_at, hget] at h
      exact absurd h (by simp)
  | some b =>
      by_cases hle : size ≤ b.avail
      · rw [alloc_at_eq a i size b hget hle] at h
        have hid : (bump b size).id = b.id := rfl
        have hwf' : CacheWF { a.cache with seq := a.cache.seq.set i (bump b size) } :=
          cache_set_wf a.cache i b (bump b size) hwf hget hid
        by_cases hv : block_valid
            (if i = 0 then none else (a.cache.seq.set i (bump b size))[i - 1]?)
            ((a.cache.seq.set i (bump b size))[i + 1]?) (bump b size) = true
        · rw [if_pos hv] at h
          injection h with h2
          injection h2 with h3 h4
          subst h4
          refine ⟨⟨hwf', ?_, ?_, ?_⟩, rfl, Or.inl rfl⟩
          · show (a.cache.seq.set i (bump b size)).Pairwise desc
            refine pairwise_set_desc a.cache.seq i b (bump b size) hpw hget
              (Nat.sub_le _ _) ?_
            intro y hy
            have hset : (a.cache.seq.set i (bump b size))[i + 1]? =
                a.cache.seq[i + 1]? := List.getElem?_set_ne (by omega)
            rw [← hset] at hy
            rw [hy] at hv
            exact block_valid_next _ y (bump b size) hv
          · show a.cache.seq.set i (bump b size) ≠ []
            intro hcon
            have := congrArg List.length hcon
            rw [List.length_set] at this
            exact hne (List.length_eq_zero.mp this)
          · intro x hx
            rcases List.mem_or_eq_of_mem_set hx with hxl | rfl
            · exact hfresh x hxl
            · exact hfresh b (List.getElem?_mem hget)
        · rw [if_neg hv] at h
          injection h with h2
          injection h2 with h3 h4
          subst h4
          have hilen : i < a.cache.seq.length := by
            rw [List.getElem?_eq_some] at hget
            exact hget.1
          have hlen2 : 2 ≤ a.cache.seq.length := by
            rcases block_valid_false_neighbor _ _ _ hv with ⟨p, hp⟩ | ⟨y, hy⟩
            · by_cases hi0 : i = 0
              · rw [if_pos hi0] at hp; exact absurd hp (by simp)
              · omega
            · obtain ⟨hlt, -⟩ := List.getElem?_eq_some.mp hy
              rw [List.length_set] at hlt
              omega
          set b' := bump b size with hb'
          set l1 := a.cache.seq.take i with hl1
          set l2 := a.cache.seq.drop (i + 1) with hl2
          have hseq : a.cache.seq = l1 ++ b :: l2 := list_split_at _ i b hget
          have hseq' : a.cache.seq.set i b' = l1 ++ b' :: l2 :=
            list_set_split _ i b b' hget
          have hlen1 : l1.length = i := by
            rw [hl1, List.length_take]
            omega
          have hlenl2 : l2.length = a.cache.seq.length - (i + 1) := by
            rw [hl2, List.length_drop]
          have hids : idsOf a.cache.seq = idsOf l1 ++ b.id :: idsOf l2 := by
            rw [hseq, idsOf_append, idsOf_cons]
          have hnodup := hwf.2.2.1
          rw [hids] at hnodup
          have hbid1 : b.id ∉ idsOf l1 := by
            intro hcon
            exact (List.nodup_append.mp hnodup).2.2 hcon (by simp)
          have hbid2 : b.id ∉ idsOf l2 :=
            (List.nodup_cons.mp (List.nodup_append.mp hnodup).2.1).1
          have hc'seq : ({ a.cache with seq := a.cache.seq.set i b' } : Cache).seq =
              l1 ++ b' :: l2 := hseq'
          obtain ⟨hr1, hr2, hr3, hr4, hr5, hr6⟩ :=
            cache_remove_core { a.cache with seq := a.cache.seq.set i b' }
              l1 b' l2 hwf' hc'seq
          have hneR : l1 ++ l2 ≠ [] := by
            intro hcon
            have := congrArg List.length hcon
            simp only [List.length_append, List.length_nil] at this
            omega
          obtain ⟨hrh, hrt⟩ := hr5 hneR
          have hwfR : CacheWF (cache_remove
              { a.cache with seq := a.cache.seq.set i b' } b'.id) := by
            refine ⟨by rw [hrh, hr1], by rw [hrt, hr1], ?_, ?_⟩
            · rw [hr1]
              refine List.Nodup.sublist ?_ hwf.2.2.1
              show (idsOf (l1 ++ l2)).Sublist (idsOf a.cache.seq)
              rw [hseq]
              show (List.map Block.id (l1 ++ l2)).Sublist (List.map Block.id (l1 ++ b :: l2))
              exact List.Sublist.map Block.id
                (List.Sublist.append_left (List.sublist_cons_self b l2) l1)
            · rw [hr1, hr2]
              show ({ a.cache with seq := a.cache.seq.set i b' } : Cache).numBlocks - 1 =
                (l1 ++ l2).length
              show a.cache.numBlocks - 1 = (l1 ++ l2).length
              rw [hwf.2.2.2]
              simp only [List.length_append]
              omega
          have hpwR : (l1 ++ l2).Pairwise desc := by
            refine List.Pairwise.sublist ?_ hpw
            rw [hseq]
            exact List.Sublist.append_left (List.sublist_cons_self b l2) l1
          have hneR' : (cache_remove
              { a.cache with seq := a.cache.seq.set i b' } b'.id).seq ≠ [] := by
            rw [hr1]; exact hneR
          have hfreshR : b'.id ∉ idsOf (cache_remove
              { a.cache with seq := a.cache.seq.set i b' } b'.id).seq := by
            rw [hr1, idsOf_append]
            intro hcon
            rcases List.mem_append.mp hcon with hc1 | hc2
            · exact hbid1 hc1
            · exact hbid2 hc2
          obtain ⟨hi1, hi2, hi3, hi4, hi5, hi6⟩ :=
            cache_insert_core _ b' hwfR hneR'
          have hwfI := cache_insert_wf _ b' hwfR hneR' hfreshR
          refine ⟨⟨hwfI, ?_, ?_, ?_⟩, rfl, Or.inr ⟨b, rfl, ?_⟩⟩
          · show (cache_insert (cache_remove
              { a.cache with seq := a.cache.seq.set i b' } b'.id) b').seq.Pairwise desc
            rw [hi1, hr1]
            exact pairwise_insert_desc b' (l1 ++ l2) hpwR
          · show (cache_insert (cache_remove
              { a.cache with seq := a.cache.seq.set i b' } b'.id) b').seq ≠ []
            rw [hi1]
            simp
          · show ∀ x ∈ (cache_insert (cache_remove
              { a.cache with seq := a.cache.seq.set i b' } b'.id) b').seq,
                x.id < a.nextId
            intro x hx
            rw [hi1, hr1] at hx
            have hmemseq : ∀ z ∈ l1 ++ l2, z ∈ a.cache.seq := by
              intro z hz
              rw [hseq]
              rcases List.mem_append.mp hz with hz1 | hz2
              · exact List.mem_append.mpr (Or.inl hz1)
              · exact List.mem_append.mpr (Or.inr (List.mem_cons_of_mem b hz2))
            rcases List.mem_append.mp hx with hx1 | hx2
            · exact hfresh x (hmemseq x
                (List.Sublist.mem hx1 (List.takeWhile_sublist _)))
            · rcases List.mem_cons.mp hx2 with rfl | hx3
              · exact hfresh b (List.getElem?_mem hget)
              · exact hfresh x (hmemseq x
                  (List.Sublist.mem hx3 (List.dropWhile_sublist _)))
          · show (cache_insert (cache_remove
              { a.cache with seq := a.cache.seq.set i b' } b'.id) b').totalUsed =
                a.cache.totalUsed + (b.used + size)
            rw [hi5, hr3]
            show a.cache.totalUsed + b'.used = a.cache.totalUsed + (b.used + size)
            rfl
      · simp only [alloc_at, hget, block_alloc, if_neg hle] at h
        exact absurd h (by simp)

theorem mem_init_inv (ok : Bool) (sp : Nat) (a : Arena)
    (h : mem_init ok sp = some a) : ArenaInv a := by
  unfold mem_init at h
  by_cases h1 : sp < MEM_BLOCK_SIZE - MEM_BLOCK_OVERHEAD
  · rw [if_pos h1] at h
    cases ok with
    | false => exact absurd h (by simp)
    | true =>
        simp only [if_true] at h
        injection h with h2
        subst h2
        refine ⟨⟨?_, ?_, ?_, ?_⟩, ?_, ?_, ?_⟩ <;>
          simp [cache_insert, idsOf, CachePairwiseDesc]
  · rw [if_neg h1] at h
    exact absurd h (by simp)

theorem find_index_spec (l : List Block) (b : Block) (hb : b ∈ l)
    (hnodup : (idsOf l).Nodup) : ∃ i, find_index b.id l = some i ∧ l[i]? = some b := by
  induction l with
  | nil => simp at hb
  | cons x xs ih =>
      by_cases hx : x.id = b.id
      · have hxb : x = b := by
          rcases List.mem_cons.mp hb with rfl | hbxs
          · rfl
          · have hmem : b.id ∈ idsOf xs := List.mem_map_of_mem Block.id hbxs
            rw [← hx] at hmem
            exact absurd hmem (List.nodup_cons.mp hnodup).1
        subst hxb
        exact ⟨0, by simp [find_index], by simp⟩
      · have hbxs : b ∈ xs := by
          rcases List.mem_cons.mp hb with rfl | h2
          · exact absurd rfl hx
          · exact h2
        obtain ⟨i, hfi, hgi⟩ := ih hbxs (List.nodup_cons.mp hnodup).2
        exact ⟨i + 1, by simp [find_index, hx, hfi], by simpa using hgi⟩

theorem create_block_ok (a : Arena) (m : Nat) :
    create_block a true m = some
      ({ id := a.nextId, used := SIZEOF_MEM_BLOCK,
         avail := (if block_target_size a.cache.numBlocks < m then m
                   else block_target_size a.cache.numBlocks) - SIZEOF_MEM_BLOCK },
       { a with nextId := a.nextId + 1 }) := rfl

theorem create_block_fail (a : Arena) (m : Nat) : create_block a false m = none := rfl

theorem mem_alloc_step_master (a : Arena) (ok : Bool) (size : Nat)
    (r : Option (Nat × Nat)) (a' : Arena) (hInv : ArenaInv a)
    (h : mem_alloc_body a ok size = some (r, a')) :
    ArenaInv a' ∧ TotalUsedStepSpec a size a' := by
  obtain ⟨hwf, hpw, hne, hfresh⟩ := hInv
  cases hfind : cache_find a.cache size with
  | some i =>
      simp only [mem_alloc_body, hfind] at h
      obtain ⟨hinv', -, htot⟩ :=
        alloc_at_master a i size r a' ⟨hwf, hpw, hne, hfresh⟩ h
      refine ⟨hinv', ?_⟩
      rcases htot with h1 | ⟨b0, hb0, h2⟩
      · exact Or.inl h1
      · exact Or.inr (Or.inl ⟨b0, List.getElem?_mem hb0, h2⟩)
  | none =>
      cases ok with
      | false =>
          simp only [mem_alloc_body, hfind, create_block_fail] at h
          obtain ⟨-, h2⟩ := Prod.mk.injEq .. ▸ Option.some_inj.mp h
          rw [← h2]
          exact ⟨⟨hwf, hpw, hne, hfresh⟩, Or.inl rfl⟩
      | true =>
          rw [show mem_alloc_body a true size =
              (match create_block a true size with
               | none => some (none, a)
               | some (b, a1) =>
                   match find_index b.id (cache_insert a1.cache b).seq with
                   | none => none
                   | some i =>
                       alloc_at { a1 with cache := cache_insert a1.cache b } i size)
            from by simp only [mem_alloc_body, hfind]] at h
          rw [create_block_ok] at h
          simp only [] at h
          set bN : Block := { id := a.nextId, used := SIZEOF_MEM_BLOCK, avail := (if block_target_size a.cache.numBlocks < size then size else block_target_size a.cache.numBlocks) - SIZEOF_MEM_BLOCK } with hbN
          have hfreshN : bN.id ∉ idsOf a.cache.seq := by
            intro hcon
            obtain ⟨x, hx, hxid⟩ := List.mem_map.mp hcon
            have hlt := hfresh x hx
            have hid : bN.id = a.nextId := rfl
            rw [hid] at hxid
            omega
          obtain ⟨hI1, hI2, hI3, hI4, hI5, hI6⟩ := cache_insert_core a.cache bN hwf hne
          have hwf2 := cache_insert_wf a.cache bN hwf hne hfreshN
          have hmemN : bN ∈ (cache_insert a.cache bN).seq := by
            rw [hI1]
            exact List.mem_append.mpr (Or.inr (by simp))
          obtain ⟨i, hfi, hgi⟩ := find_index_spec _ bN hmemN hwf2.2.2.1
          have hfi' : find_index a.nextId (cache_insert a.cache bN).seq = some i := hfi
          rw [hfi'] at h
          have hInv2 : ArenaInv { cache := cache_insert a.cache bN, nextId := a.nextId + 1 } := by
            refine ⟨hwf2, ?_, ?_, ?_⟩
            · show (cache_insert a.cache bN).seq.Pairwise desc
              rw [hI1]
              exact pairwise_insert_desc bN a.cache.seq hpw
            · show (cache_insert a.cache bN).seq ≠ []
              rw [hI1]
              simp
            · intro x hx
              show x.id < a.nextId + 1
              rw [hI1] at hx
              rcases List.mem_append.mp hx with hx1 | hx2
              · have := hfresh x (List.Sublist.mem hx1 (List.takeWhile_sublist _))
                omega
              · rcases List.mem_cons.mp hx2 with rfl | hx3
                · show a.nextId < a.nextId + 1
                  omega
                · have := hfresh x (List.Sublist.mem hx3 (List.dropWhile_sublist _))
                  omega
          obtain ⟨hinv', -, htot⟩ :=
            alloc_at_master { cache := cache_insert a.cache bN, nextId := a.nextId + 1 }
              i size r a' hInv2 h
          refine ⟨hinv', ?_⟩
          rcases htot with h1 | ⟨b0, hb0, h2⟩
          · refine Or.inr (Or.inr (Or.inl ?_))
            rw [h1]
            show (cache_insert a.cache bN).totalUsed = a.cache.totalUsed + SIZEOF_MEM_BLOCK
            rw [hI5]
          · refine Or.inr (Or.inr (Or.inr ?_))
            have hb0N : b0 = bN := by
              rw [hgi] at hb0
              exact (Option.some_inj.mp hb0).symm
            subst hb0N
            rw [h2]
            show (cache_insert a.cache bN).totalUsed + (bN.used + size) =
              a.cache.totalUsed + SIZEOF_MEM_BLOCK + (SIZEOF_MEM_BLOCK + size)
            rw [hI5]

theorem arena_inv_reachable (a : Arena) (h : Reachable a) : ArenaInv a := by
  induction h with
  | init ok sp a0 h0 => exact mem_init_inv ok sp a0 h0
  | step a0 ok size r a1 _ hstep ih =>
      exact (mem_alloc_step_master a0 ok size r a1 ih hstep).1

/-- C2: every arena produced by mem_init followed by any sequence of
successful mem_alloc calls has its block cache sorted by descending
avail: for every adjacent pair in the linked sequence the predecessor's
avail is at least the successor's. -/
theorem mem_alloc_preserves_order (a : Arena) (h : Reachable a) :
    CacheSorted a.cache :=
  List.Pairwise.chain' (arena_inv_reachable a h).2.1

/-- Witness for the ordering invariant: the concrete arena obtained by
mem_init with a 64-byte context followed by a 100-byte allocation. -/
theorem mem_alloc_preserves_order_w : CacheSorted arena1.cache :=
  mem_alloc_preserves_order arena1
    (Reachable.step arena0 true 100 (some (0, 96)) arena1
      (Reachable.init true 64 arena0 (by decide))
      (by decide))

/-- C7: mem_alloc with a null context handle is a defined failure: it
returns NULL and no arena state exists or is touched. -/
theorem mem_alloc_null_context (ok : Bool) (size : Nat) :
    mem_alloc none ok size = some (none, none) := rfl

/-- C9: when the cache cannot satisfy a request and the backend then
fails, mem_alloc returns NULL and the arena, its cache included, is left
completely unchanged. -/
theorem mem_alloc_backend_fail (a : Arena) (size : Nat)
    (hfind : cache_find a.cache size = none) :
    mem_alloc_body a false size = some (none, a) := by
  simp only [mem_alloc_body, hfind, create_block_fail]

/-- Witness for the failed-backend path on a concrete live arena. -/
theorem mem_alloc_backend_fail_w :
    cache_find arena0.cache 5000 = none ∧
      mem_alloc_body arena0 false 5000 = some (none, arena0) :=
  ⟨by decide, mem_alloc_backend_fail arena0 5000 (by decide)⟩

/-- C1 (code slip): on the arena fresh from mem_init a 100000-byte request
exceeds every cached avail, the backend call succeeds, and create_block
returns a dedicated block sized exactly to the request; but its avail is
the request minus the block header and is strictly below the request, so
the bump allocation's precondition b->avail >= size is violated and the C
assert fires (the modelled call aborts with none) instead of succeeding. -/
theorem mem_alloc_oversized_assert_fires :
    cache_find arena0.cache 100000 = none ∧
    create_block arena0 true 100000 =
      some ({ id := 1, used := 32, avail := 99968 },
        { cache := arena0.cache, nextId := 2 }) ∧
    (99968 : Nat) < 100000 ∧
    mem_alloc_body arena0 true 100000 = none := by
  refine ⟨by decide, by decide, by decide, by decide⟩

/-- C8 counterexample: with one block held the target computed by
create_block is (4096 << 1) - 32 = 8160 while the claimed equivalent
base-unit formula (4096 - 32) << 1 gives 8128; the two formulas differ. -/
theorem create_block_target_not_shifted_base :
    block_target_size 1 = 8160 ∧
      (MEM_BLOCK_SIZE - MEM_BLOCK_OVERHEAD) <<< 1 = 8128 ∧
      block_target_size 1 ≠ (MEM_BLOCK_SIZE - MEM_BLOCK_OVERHEAD) <<< 1 := by
  refine ⟨by decide, by decide, by decide⟩

/-- C8 (amended): with N blocks already held (N ≤ 51, below size_t
wrap-around) and no oversize override, the block created by create_block
has header plus avail summing to exactly (4096 << N) - 32 = 4096 * 2^N - 32
bytes: the doubling applies to the whole default chunk size before the
fixed overhead is subtracted, not to the overhead-reduced base unit. -/
theorem create_block_target_growth (a : Arena) (m n : Nat)
    (hn : a.cache.numBlocks = n) (h51 : n ≤ 51)
    (hm : m ≤ 4096 * 2 ^ n - 32) :
    ∃ b a1, create_block a true m = some (b, a1) ∧
      b.used + b.avail = 4096 * 2 ^ n - 32 ∧
      b.used = SIZEOF_MEM_BLOCK := by
  have h2n : 2 ^ n ≤ 2 ^ 51 := Nat.pow_le_pow_right (by norm_num) h51
  have h2n1 : 1 ≤ 2 ^ n := Nat.one_le_two_pow
  have htarget : block_target_size n = 4096 * 2 ^ n - 32 := by
    unfold block_target_size wsub MEM_BLOCK_SIZE MEM_BLOCK_OVERHEAD W
    rw [Nat.shiftLeft_eq]
    have hlt : 4096 * 2 ^ n < 2 ^ 64 := by
      have hb : 4096 * 2 ^ n ≤ 4096 * 2 ^ 51 := Nat.mul_le_mul_left _ h2n
      have hc : (4096 : Nat) * 2 ^ 51 < 2 ^ 64 := by norm_num
      omega
    rw [Nat.mod_eq_of_lt hlt]
    have hsplit : 4096 * 2 ^ n + 2 ^ 64 - 32 = (4096 * 2 ^ n - 32) + 2 ^ 64 := by
      omega
    rw [hsplit, Nat.add_mod_right]
    exact Nat.mod_eq_of_lt (by omega)
  rw [create_block_ok a m, hn]
  refine ⟨_, _, rfl, ?_, rfl⟩
  rw [htarget]
  rw [if_neg (by omega)]
  show 32 + (4096 * 2 ^ n - 32 - 32) = 4096 * 2 ^ n - 32
  omega

/-- Witness for the growth formula at one held block and a small request. -/
theorem create_block_target_growth_w :
    arena0.cache.numBlocks = 1 ∧ (1 : Nat) ≤ 51 ∧ (0 : Nat) ≤ 4096 * 2 ^ 1 - 32 ∧
      ∃ b a1, create_block arena0 true 0 = some (b, a1) ∧
        b.used + b.avail = 4096 * 2 ^ 1 - 32 ∧ b.used = SIZEOF_MEM_BLOCK :=
  ⟨by decide, by decide, by decide,
    create_block_target_growth arena0 0 1 (by decide) (by decide) (by decide)⟩

/-- C3 counterexample: after one successful 8-byte allocation on a fresh
arena, total_used still reports the root block's initial used (96 bytes
with the modelled 64-byte context), not the claimed sum of requested
sizes plus overhead times blocks created (8 + 32 * 1 = 40). -/
theorem total_used_not_sum_of_sizes :
    mem_alloc_body arena0 true 8 = some (some (0, 96), arena2) ∧
      arena2.cache.totalUsed = 96 ∧
      arena2.cache.numBlocks = 1 ∧
      arena2.cache.totalUsed ≠ 8 + MEM_BLOCK_OVERHEAD * arena2.cache.numBlocks := by
  refine ⟨by decide, by decide, by decide, by decide⟩

/-- C3 (amended): total_used moves only when blocks are inserted into the
cache.  Across one successful mem_alloc it is unchanged when an existing
block serves the request in place, grows by the serving block's pre-bump
used plus the requested size when the allocation triggers a reorder
reinsertion, and grows by the block-header overhead (plus additionally
header and size when the fresh block immediately reorders) when a new
block is provisioned; it does not track the sum of requested sizes. -/
theorem total_used_step (a : Arena) (ok : Bool) (size : Nat)
    (r : Option (Nat × Nat)) (a' : Arena) (hInv : ArenaInv a)
    (h : mem_alloc_body a ok size = some (r, a')) :
    TotalUsedStepSpec a size a' :=
  (mem_alloc_step_master a ok size r a' hInv h).2

/-- Witness for the total_used step on a concrete in-place allocation. -/
theorem total_used_step_w : ArenaInv arena0 ∧ TotalUsedStepSpec arena0 8 arena2 :=
  ⟨by decide,
    total_used_step arena0 true 8 (some (0, 96)) arena2 (by decide) (by decide)⟩

/-- Witness for the cache_find specification on the concrete root cache. -/
theorem cache_find_spec_w :
    CachePairwiseDesc arena0.cache ∧ CacheFindSpecAt arena0.cache 100 :=
  ⟨by decide, cache_find_spec arena0.cache 100 (by decide)⟩

/-- Witness for the cache_insert specification on the concrete root cache. -/
theorem cache_insert_spec_w :
    CacheInsertSpecAt arena0.cache { id := 7, used := 40, avail := 5000 } :=
  cache_insert_spec arena0.cache _ (by decide) (by decide) (by decide)

/-- C6 counterexample: removing the only block of a single-block cache
leaves head and tail still pointing at the removed block even though the
sequence is now empty: the endpoint pointers are not repaired. -/
theorem cache_remove_singleton_stale :
    (cache_remove arena0.cache 0).seq = [] ∧
      (cache_remove arena0.cache 0).numBlocks = 0 ∧
      (cache_remove arena0.cache 0).headId = some 0 ∧
      (cache_remove arena0.cache 0).tailId = some 0 := by
  refine ⟨by decide, by decide, by decide, by decide⟩

/-- Witness for the cache_remove specification on a two-block cache. -/
theorem cache_remove_spec_w :
    CacheRemoveSpecAt cache2b { id := 0, used := 96, avail := 3968 } :=
  cache_remove_spec cache2b _ (by decide) (by decide)

/-- C10: on a live arena (well-formed links, descending order, non-empty
cache) a zero-byte allocation succeeds: it returns the current bump
address of the tail block, the one with least avail, and leaves the
arena, every block and every counter completely unchanged. -/
theorem mem_alloc_zero (a : Arena) (hwf : CacheWF a.cache)
    (hpw : CachePairwiseDesc a.cache) (hne : a.cache.seq ≠ []) :
    AllocZeroSpecAt a := by
  have hlen : 1 ≤ a.cache.seq.length := by
    cases hx : a.cache.seq with
    | nil => exact absurd hx hne
    | cons z zs => simp [hx]
  have ht? : a.cache.seq.getLast? = some (a.cache.seq.getLast hne) :=
    List.getLast?_eq_getLast _ hne
  set t := a.cache.seq.getLast hne with htdef
  have hgt : a.cache.seq[a.cache.seq.length - 1]? = some t := by
    rw [← List.getLast?_eq_getElem?]
    exact ht?
  have htw : a.cache.seq.takeWhile (fun x => decide ((0 : Nat) ≤ x.avail)) = a.cache.seq :=
    List.takeWhile_eq_self_iff.mpr (fun x _ => by simp)
  have hfind : cache_find a.cache 0 = some (a.cache.seq.length - 1) := by
    rw [cache_find_eq, htw, if_neg hne]
  refine ⟨t, ht?, ?_⟩
  intro ok
  have hbump : bump t 0 = t := rfl
  have hset : a.cache.seq.set (a.cache.seq.length - 1) (bump t 0) = a.cache.seq := by
    rw [hbump]
    exact list_set_self _ _ _ hgt
  have hvalid : block_valid
      (if a.cache.seq.length - 1 = 0 then none
       else (a.cache.seq.set (a.cache.seq.length - 1)
         (bump t 0))[a.cache.seq.length - 1 - 1]?)
      ((a.cache.seq.set (a.cache.seq.length - 1)
        (bump t 0))[a.cache.seq.length - 1 + 1]?)
      (bump t 0) = true := by
    rw [hset, hbump]
    have hnext : a.cache.seq[a.cache.seq.length - 1 + 1]? = none :=
      List.getElem?_eq_none (by omega)
    rw [hnext]
    by_cases h0 : a.cache.seq.length - 1 = 0
    · rw [if_pos h0]
      rfl
    · rw [if_neg h0]
      have hplt : a.cache.seq.length - 1 - 1 < a.cache.seq.length := by omega
      obtain ⟨p, hp⟩ : ∃ p, a.cache.seq[a.cache.seq.length - 1 - 1]? = some p :=
        ⟨_, List.getElem?_eq_getElem hplt⟩
      rw [hp]
      obtain ⟨hplt2, hpe⟩ := List.getElem?_eq_some.mp hp
      obtain ⟨htlt, hte⟩ := List.getElem?_eq_some.mp hgt
      have hij := List.pairwise_iff_getElem.mp hpw
        (a.cache.seq.length - 1 - 1) (a.cache.seq.length - 1) hplt2 htlt (by omega)
      rw [hpe, hte] at hij
      show block_valid (some p) none t = true
      simp [block_valid]
      exact hij
  rw [show mem_alloc_body a ok 0 = alloc_at a (a.cache.seq.length - 1) 0 from by
    simp only [mem_alloc_body, hfind]]
  rw [alloc_at_eq a (a.cache.seq.length - 1) 0 t hgt (Nat.zero_le _)]
  rw [if_pos hvalid, hset]

/-- Witness for the zero-size allocation on the concrete root arena. -/
theorem mem_alloc_zero_w : AllocZeroSpecAt arena0 :=
  mem_alloc_zero arena0 (by decide) (by decide) (by decide)

end Ptab
